import Mathlib

/-!
Verification of the batch question-answering agent (`my_agent.py`).

The development shallowly embeds the source file's functions:
* string normalization and marker extraction (`extract_answer`),
* the HTTP solver client (`call_model_chat_completions`, `ask_solver`),
  with the network modelled as an oracle value per call,
* the retry wrapper (`run_agent`), with sleeps recorded instead of performed,
* the batch scheduler (`generate_all_answers`), with thread interleaving
  modelled by an explicit per-chunk completion order and with an event trace
  recording dispatches, completions, slot writes, lock operations,
  persistence and progress recomputation.
-/

namespace MyAgent

/-- Python ASCII whitespace, as recognized by `str.strip()`. -/
def pyIsSpace (c : Char) : Bool :=
  c = ' ' || c = '\t' || c = '\n' || c = '\x0d' || c = '\x0b' || c = '\x0c'

/-- Python `s.strip()`: drop whitespace from both ends. -/
def pyStrip (s : List Char) : List Char :=
  ((s.dropWhile pyIsSpace).reverse.dropWhile pyIsSpace).reverse

/-- Python `s.rstrip(cs)`: drop trailing characters satisfying `p`. -/
def pyRstrip (p : Char → Bool) (s : List Char) : List Char :=
  (s.reverse.dropWhile p).reverse

/-- Python `s.lstrip(cs)`: drop leading characters satisfying `p`. -/
def pyLstrip (p : Char → Bool) (s : List Char) : List Char :=
  s.dropWhile p

/-- Python `s.replace(" ", "")`: delete every space character. -/
def removeSpaces (s : List Char) : List Char :=
  s.filter (fun c => !(c = ' '))

/-- The literal marker `FINAL ANSWER:` scanned for in the model output. -/
def marker : List Char :=
  ['F', 'I', 'N', 'A', 'L', ' ', 'A', 'N', 'S', 'W', 'E', 'R', ':']

/-- Python `sep in s` for a non-empty separator: does `sep` occur in `s`? -/
def containsSub (sep : List Char) : List Char → Bool
  | [] => false
  | c :: rest => sep.isPrefixOf (c :: rest) || containsSub sep rest

/-- Python `s.split(sep)` for non-empty `sep`, greedy left-to-right, with
explicit fuel; `fuel ≥ s.length` makes the fuel bound unreachable because
every step consumes at least one character. -/
def pySplitF (sep : List Char) : Nat → List Char → List (List Char)
  | _, [] => [[]]
  | 0, s => [s]
  | fuel + 1, c :: rest =>
    if sep.isPrefixOf (c :: rest) then
      [] :: pySplitF sep fuel (List.drop sep.length (c :: rest))
    else
      match pySplitF sep fuel rest with
      | [] => [[c]]
      | p :: ps => (c :: p) :: ps

/-- Python `s.split(sep)` (non-empty `sep`). -/
def pySplit (sep s : List Char) : List (List Char) :=
  pySplitF sep s.length s

/-- `extract_answer` from the source: `None` when the text is empty or the
marker is absent, else the text after the last marker occurrence, stripped,
with trailing dots and leading plus signs removed and spaces deleted;
`None` again when the cleaned text is empty (`return ans or None`). -/
def extract_answer (raw : List Char) : Option (List Char) :=
  if raw.isEmpty || !containsSub marker raw then none
  else
    let ans := pyStrip (((pySplit marker raw).getLast?).getD [])
    let ans2 := removeSpaces (pyLstrip (fun c => c = '+')
      (pyRstrip (fun c => c = '.') ans))
    if ans2.isEmpty then none else some ans2

/-- The suffix of `s` following the rightmost occurrence of `marker`,
or `none` when the marker does not occur. -/
def lastOcc : List Char → Option (List Char)
  | [] => none
  | c :: rest =>
    match lastOcc rest with
    | some t => some t
    | none =>
      if marker.isPrefixOf (c :: rest) then
        some (List.drop marker.length (c :: rest))
      else none

/-- Reference definition of the extraction, following the specification's
words: absence when the marker does not occur, else the substring after the
last occurrence, whitespace-stripped, all trailing periods removed, all
leading plus signs removed, every space deleted, absence when empty. -/
def extract_answer_spec (raw : List Char) : Option (List Char) :=
  match lastOcc raw with
  | none => none
  | some t =>
    let a := removeSpaces (pyLstrip (fun c => c = '+')
      (pyRstrip (fun c => c = '.') (pyStrip t)))
    if a.isEmpty then none else some a

/-- Outcome of one `requests.post` call together with the in-`try` handling
of its response: `raise` models a network/timeout exception, `response`
carries the HTTP status and the parsed generated text (`none` when
`resp.json()` or the field indexing raised inside the `try`, `some none`
when the content field was `null`, `some (some t)` for text `t`). -/
inductive HttpResult where
  | raise : HttpResult
  | response (status : Nat) (parsed : Option (Option (List Char))) : HttpResult

/-- The dictionary returned by `call_model_chat_completions`. -/
structure CallResult where
  ok : Bool
  text : Option (List Char)
deriving DecidableEq

/-- `call_model_chat_completions`: one external call; every exception is
absorbed by the `try`/`except` and becomes `ok = false, text = None`;
a non-200 status also becomes `ok = false, text = None`. -/
def call_model_chat_completions (http : HttpResult) : CallResult :=
  match http with
  | .raise => ⟨false, none⟩
  | .response status parsed =>
    if status == 200 then
      match parsed with
      | none => ⟨false, none⟩
      | some t => ⟨true, t⟩
    else ⟨false, none⟩

/-- `ask_solver`: one call to the endpoint, returning the raw text,
with `resp.get("text") or ""` collapsing `None` and `""` to `""`. -/
def ask_solver (http : HttpResult) : List Char :=
  match (call_model_chat_completions http).text with
  | some t => if t.isEmpty then [] else t
  | none => []

/-- Truthiness of the Python value `extract_answer(...)`:
`None` and the empty string are falsy. -/
def pyTruthy : Option (List Char) → Bool
  | none => false
  | some s => !s.isEmpty

/-- Result of one `run_agent` run: the returned string, the number of loop
iterations executed, the number of external solve calls issued, and the
list of backoff sleep durations (seconds), in order. -/
structure RunResult where
  answer : List Char
  attempts : Nat
  calls : Nat
  sleeps : List Nat
deriving DecidableEq

/-- The retry loop of `run_agent`, by remaining iteration count:
each iteration asks the solver once; a truthy extraction returns
immediately (stripped); otherwise, when this is not the last attempt,
the task sleeps `attempt + 1` seconds and retries; after the final
attempt the empty string is returned. -/
def runAgentAux (http : Nat → HttpResult) : Nat → Nat → RunResult
  | 0, _ => ⟨[], 0, 0, []⟩
  | remaining + 1, attempt =>
    let a := extract_answer (ask_solver (http attempt))
    if pyTruthy a then ⟨pyStrip (a.getD []), 1, 1, []⟩
    else if remaining = 0 then ⟨[], 1, 1, []⟩
    else
      let r := runAgentAux http remaining (attempt + 1)
      ⟨r.answer, r.attempts + 1, r.calls + 1, (attempt + 1) :: r.sleeps⟩

/-- `run_agent`: the whole retry loop, `max_retries` iterations from
attempt 0, with the per-attempt network outcomes given by the oracle
`http`. -/
def run_agent (http : Nat → HttpResult) (maxRetries : Nat) : RunResult :=
  runAgentAux http maxRetries 0

/-- Transport failure of one solve attempt: the call raised
(network error or timeout), the status was not 200, or the response
handling raised inside the `try`. -/
def transportFailure (http : HttpResult) : Prop :=
  match http with
  | .raise => True
  | .response status parsed => status ≠ 200 ∨ parsed = none

/-- An input question object: `some text` when the dictionary has an
`input` field with that text, `none` when the field is absent. -/
def Question : Type := Option (List Char)

/-- Python `q.get("input", "")`. -/
def getInput (q : Question) : List Char :=
  Option.getD q []

/-- The text submitted for global question index `i`. -/
def questionText (questions : List Question) (i : Nat) : List Char :=
  getInput ((questions[i]?).getD (Option.none))

/-- One element of the answer list: the dictionary with an `output` field. -/
structure AnswerRec where
  output : List Char
deriving DecidableEq

/-- The outcome of one scheduled task, as observed by `future.result()`:
either the string returned by `run_agent`, or an exception. -/
inductive TaskOutcome where
  | ok (s : List Char) : TaskOutcome
  | exn : TaskOutcome
deriving DecidableEq

/-- The answer record stored for a task outcome: the stripped result on
success (`future.result().strip()`), the empty-output record when the
task raised. -/
def taskAnswer (o : TaskOutcome) : AnswerRec :=
  match o with
  | .ok s => ⟨pyStrip s⟩
  | .exn => ⟨[]⟩

/-- Observable steps of the batch run, in program order: task dispatch
(with the submitted text), future completion, the slot write
`answers[idx] = ...`, lock acquire, snapshot persistence, lock release,
and progress recomputation. -/
inductive Event where
  | start (i : Nat) (text : List Char) : Event
  | complete (i : Nat) : Event
  | write (i : Nat) : Event
  | acquire : Event
  | persist : Event
  | release : Event
  | progress : Event
deriving DecidableEq

/-- State threaded through the batch run: the shared answer array
(`None` = pending), the current contents of the partial-answers file
(`none` = not yet written), the history of snapshots written to it,
and the event trace. -/
structure BatchState where
  answers : List (Option AnswerRec)
  fileContent : Option (List AnswerRec)
  snapshots : List (List AnswerRec)
  events : List Event
deriving DecidableEq

/-- The list-comprehension rendering used both by `save_answers` and for
the final return value: pending slots become the empty-output record. -/
def renderAnswers (answers : List (Option AnswerRec)) : List AnswerRec :=
  answers.map (fun a => a.getD ⟨[]⟩)

/-- `get_progress_info`: completed and remaining counts, derived from the
answer array. -/
def get_progress_info (answers : List (Option AnswerRec)) (total : Nat) :
    Nat × Nat :=
  let completed := (answers.filter (fun a => a.isSome)).length
  (completed, total - completed)

/-- Processing of one completed future in the `as_completed` loop:
store the slot (outside the lock), then `save_answers` (render and write
the file under the lock), then recompute progress. -/
def processCompletion (task : Nat → List Char → TaskOutcome)
    (qtxt : Nat → List Char) (st : BatchState) (i : Nat) : BatchState :=
  let a := taskAnswer (task i (qtxt i))
  let answers := st.answers.set i (some a)
  let snap := renderAnswers answers
  { answers := answers
    fileContent := some snap
    snapshots := st.snapshots ++ [snap]
    events := st.events ++
      [.complete i, .write i, .acquire, .persist, .release, .progress] }

/-- One chunk of the batch loop: submit every task of the chunk in order
(indices `Iπ.1`), then process the completed futures in the completion
order `Iπ.2` given by `as_completed`. -/
def processChunk (task : Nat → List Char → TaskOutcome)
    (qtxt : Nat → List Char) (st : BatchState) (Iπ : List Nat × List Nat) :
    BatchState :=
  let st1 := { st with
    events := st.events ++ Iπ.1.map (fun i => Event.start i (qtxt i)) }
  Iπ.2.foldl (processCompletion task qtxt) st1

/-- `BATCH_SIZE` from the source. -/
def BATCH_SIZE : Nat := 10

/-- Consecutive chunks of at most `B` elements, with fuel;
`fuel ≥ l.length` makes the fuel bound unreachable when `B ≥ 1`. -/
def chunkListF (B : Nat) : Nat → List Nat → List (List Nat)
  | _, [] => []
  | 0, l => [l]
  | fuel + 1, a :: l => (a :: l).take B :: chunkListF B fuel ((a :: l).drop B)

/-- The chunk decomposition `range(0, total, BATCH_SIZE)` of the index
list performed by the batch loop. -/
def chunkList (B : Nat) (l : List Nat) : List (List Nat) :=
  chunkListF B l.length l

/-- Initial batch state: `answers = [None] * total`, no file yet. -/
def initState (total : Nat) : BatchState :=
  ⟨List.replicate total (Option.none), Option.none, [], []⟩

/-- `generate_all_answers`: chunk the index list, run every chunk, and
return the final rendered answer list together with the final state.
`task` gives each task's outcome (index and submitted text to outcome)
and `sched` gives, per chunk, the order in which `as_completed` yields
the chunk's futures. -/
def generate_all_answers (questions : List Question)
    (task : Nat → List Char → TaskOutcome) (sched : List (List Nat)) :
    List AnswerRec × BatchState :=
  let total := questions.length
  let chunks := chunkList BATCH_SIZE (List.range total)
  let stF := (chunks.zip sched).foldl
    (processChunk task (questionText questions)) (initState total)
  (renderAnswers stF.answers, stF)

/-- A completion schedule is valid when it has one completion order per
chunk and each is a permutation of that chunk's indices. -/
def ValidSched (total : Nat) (sched : List (List Nat)) : Prop :=
  List.Forall₂ (fun pi I => pi.Perm I) sched
    (chunkList BATCH_SIZE (List.range total))

/-- The answer array after a list of completions has been processed:
each completion writes its own fixed slot. -/
def setAll (f : Nat → AnswerRec) (a : List (Option AnswerRec))
    (sigma : List Nat) : List (Option AnswerRec) :=
  sigma.foldl (fun a i => a.set i (some (f i))) a

/-- The snapshots written while a list of completions is processed:
one full rendering after every single completion. -/
def snapTrail (f : Nat → AnswerRec) (a : List (Option AnswerRec)) :
    List Nat → List (List AnswerRec)
  | [] => []
  | i :: sigma =>
    let a2 := a.set i (some (f i))
    renderAnswers a2 :: snapTrail f a2 sigma

/-- The trace block emitted while one completed future is processed. -/
def completionBlock (i : Nat) : List Event :=
  [.complete i, .write i, .acquire, .persist, .release, .progress]

/-- The trace of one chunk: all dispatches, then one completion block per
task, in completion order. -/
def chunkTrace (qtxt : Nat → List Char) (Iπ : List Nat × List Nat) :
    List Event :=
  Iπ.1.map (fun i => Event.start i (qtxt i)) ++ Iπ.2.flatMap completionBlock

/-- Counts of dispatch and completion events, for the concurrency bound. -/
def isStart : Event → Bool
  | .start _ _ => true
  | _ => false

/-- Recognizer for completion events. -/
def isComplete : Event → Bool
  | .complete _ => true
  | _ => false

/-- Checker for the claim that every slot write happens while the lock is
held: scan the trace tracking the lock depth and demand positive depth at
every `write`. -/
def writesGuardedFrom (depth : Nat) : List Event → Bool
  | [] => true
  | .acquire :: tr => writesGuardedFrom (depth + 1) tr
  | .release :: tr => writesGuardedFrom (depth - 1) tr
  | .write _ :: tr => decide (0 < depth) && writesGuardedFrom depth tr
  | _ :: tr => writesGuardedFrom depth tr

/-- Checker demanding positive lock depth at every snapshot persistence. -/
def persistsGuardedFrom (depth : Nat) : List Event → Bool
  | [] => true
  | .acquire :: tr => persistsGuardedFrom (depth + 1) tr
  | .release :: tr => persistsGuardedFrom (depth - 1) tr
  | .persist :: tr => decide (0 < depth) && persistsGuardedFrom depth tr
  | _ :: tr => persistsGuardedFrom depth tr

/-- Scan forward from a slot write: before the first subsequent lock
release, both a persistence and a progress recomputation must occur. -/
def blockScan (sawPersist sawProgress : Bool) : List Event → Bool
  | [] => false
  | .release :: _ => sawPersist && sawProgress
  | .persist :: tr => blockScan true sawProgress tr
  | .progress :: tr => blockScan sawPersist true tr
  | _ :: tr => blockScan sawPersist sawProgress tr

/-- Checker for the claim that after every slot write a snapshot is
persisted and the progress counters are recomputed before the guard is
released. -/
def persistProgressBeforeRelease : List Event → Bool
  | [] => true
  | .write _ :: tr => blockScan false false tr && persistProgressBeforeRelease tr
  | _ :: tr => persistProgressBeforeRelease tr

/-- The guarding discipline claimed by the specification for the shared
answer set: every slot write under the lock, and after each write both the
snapshot persistence and the progress recomputation before the release. -/
def SpecLockDiscipline (tr : List Event) : Prop :=
  writesGuardedFrom 0 tr = true ∧ persistProgressBeforeRelease tr = true

instance (tr : List Event) : Decidable (SpecLockDiscipline tr) :=
  inferInstanceAs (Decidable (writesGuardedFrom 0 tr = true ∧
    persistProgressBeforeRelease tr = true))

/-- Checker for the actual per-completion shape of the trace: every slot
write is immediately followed by acquire, persist, release, progress. -/
def wellFormedBlocks : List Event → Bool
  | [] => true
  | .start _ _ :: tr => wellFormedBlocks tr
  | .complete _ :: tr => wellFormedBlocks tr
  | .write _ :: .acquire :: .persist :: .release :: .progress :: tr =>
    wellFormedBlocks tr
  | _ => false

/-- The indices dispatched in a trace, in dispatch order. -/
def startsIdx (tr : List Event) : List Nat :=
  tr.filterMap (fun e => match e with | .start i _ => some i | _ => none)

/-- Decision procedure for `List.Forall₂`. -/
def forall₂Dec {α β : Type} (R : α → β → Prop) (d : ∀ a b, Decidable (R a b)) :
    ∀ (l₁ : List α) (l₂ : List β), Decidable (List.Forall₂ R l₁ l₂)
  | [], [] => isTrue List.Forall₂.nil
  | [], _ :: _ => isFalse (fun h => by cases h)
  | _ :: _, [] => isFalse (fun h => by cases h)
  | a :: l₁, b :: l₂ =>
    match d a b with
    | isFalse h1 =>
      isFalse (fun h => h1 (by cases h with | cons ha _ => exact ha))
    | isTrue h1 =>
      match forall₂Dec R d l₁ l₂ with
      | isTrue h2 => isTrue (List.Forall₂.cons h1 h2)
      | isFalse h2 =>
        isFalse (fun h => h2 (by cases h with | cons _ hl => exact hl))

instance (total : Nat) (sched : List (List Nat)) :
    Decidable (ValidSched total sched) :=
  forall₂Dec _ (fun a b => List.decidablePerm a b) _ _

theorem isPrefixOf_iff_pfx {l₁ l₂ : List Char} :
    l₁.isPrefixOf l₂ = true ↔ l₁ <+: l₂ :=
  List.isPrefixOf_iff_prefix

theorem marker_not_pfx_cons (c : Char) (hc : c ≠ 'F') (w : List Char) :
    marker.isPrefixOf (c :: w) = false := by
  have h1 : ('F' == c) = false := beq_false_of_ne (Ne.symm hc)
  simp [marker, List.isPrefixOf, h1]

theorem lastOcc_cons_eq (c : Char) (w : List Char)
    (h : marker.isPrefixOf (c :: w) = false) : lastOcc (c :: w) = lastOcc w := by
  cases hl : lastOcc w <;> simp [lastOcc, h, hl]

theorem lastOcc_skip (c : Char) (hc : c ≠ 'F') (w : List Char) :
    lastOcc (c :: w) = lastOcc w :=
  lastOcc_cons_eq c w (marker_not_pfx_cons c hc w)

theorem lastOcc_marker_append (u : List Char) :
    lastOcc (marker ++ u) = some ((lastOcc u).getD u) := by
  have hpx : marker.isPrefixOf (marker ++ u) = true :=
    isPrefixOf_iff_pfx.mpr ⟨u, rfl⟩
  have hskip : lastOcc ('I' :: 'N' :: 'A' :: 'L' :: ' ' :: 'A' :: 'N' :: 'S' ::
      'W' :: 'E' :: 'R' :: ':' :: u) = lastOcc u := by
    rw [lastOcc_skip 'I' (by decide), lastOcc_skip 'N' (by decide),
      lastOcc_skip 'A' (by decide), lastOcc_skip 'L' (by decide),
      lastOcc_skip ' ' (by decide), lastOcc_skip 'A' (by decide),
      lastOcc_skip 'N' (by decide), lastOcc_skip 'S' (by decide),
      lastOcc_skip 'W' (by decide), lastOcc_skip 'E' (by decide),
      lastOcc_skip 'R' (by decide), lastOcc_skip ':' (by decide)]
  show lastOcc ('F' :: ('I' :: 'N' :: 'A' :: 'L' :: ' ' :: 'A' :: 'N' :: 'S' ::
    'W' :: 'E' :: 'R' :: ':' :: u)) = some ((lastOcc u).getD u)
  rw [lastOcc, hskip]
  cases hu : lastOcc u with
  | none =>
    have : marker.isPrefixOf ('F' :: 'I' :: 'N' :: 'A' :: 'L' :: ' ' :: 'A' ::
        'N' :: 'S' :: 'W' :: 'E' :: 'R' :: ':' :: u) = true := hpx
    simp [this]
    rfl
  | some t => simp

theorem getLast?_cons_ne {α : Type} (x : α) (L : List α) (h : L ≠ []) :
    (x :: L).getLast? = L.getLast? := by
  cases L with
  | nil => exact absurd rfl h
  | cons b L2 => exact List.getLast?_cons_cons

theorem pySplitF_lastOcc : ∀ (fuel : Nat) (s : List Char), s.length ≤ fuel →
    (lastOcc s = none ∧ pySplitF marker fuel s = [s]) ∨
    (∃ t, lastOcc s = some t ∧ 2 ≤ (pySplitF marker fuel s).length ∧
      (pySplitF marker fuel s).getLast? = some t) := by
  intro fuel
  induction fuel with
  | zero =>
    intro s hs
    have : s = [] := List.eq_nil_of_length_eq_zero (Nat.le_zero.mp hs)
    subst this
    exact Or.inl ⟨rfl, rfl⟩
  | succ fuel ih =>
    intro s hs
    match s with
    | [] => exact Or.inl ⟨rfl, rfl⟩
    | c :: rest =>
      by_cases hp : marker.isPrefixOf (c :: rest) = true
      · obtain ⟨u, hu⟩ : ∃ u, marker ++ u = c :: rest :=
          isPrefixOf_iff_pfx.mp hp
        have hdrop : List.drop marker.length (c :: rest) = u := by
          rw [← hu]; exact List.drop_left marker u
        have hsplit : pySplitF marker (fuel + 1) (c :: rest) =
            [] :: pySplitF marker fuel u := by
          simp [pySplitF, hp, hdrop]
        have hlast : lastOcc (c :: rest) = some ((lastOcc u).getD u) := by
          rw [← hu]; exact lastOcc_marker_append u
        have hulen : u.length ≤ fuel := by
          have h2 : (c :: rest).length ≤ fuel + 1 := hs
          rw [← hu] at h2
          simp [marker] at h2
          omega
        rcases ih u hulen with ⟨hnone, heq⟩ | ⟨t, hsome, hlen, hl⟩
        · refine Or.inr ⟨u, ?_, ?_, ?_⟩
          · rw [hlast, hnone]; rfl
          · rw [hsplit, heq]; simp
          · rw [hsplit, heq]; rfl
        · refine Or.inr ⟨t, ?_, ?_, ?_⟩
          · rw [hlast, hsome]; rfl
          · rw [hsplit]; simp; omega
          · have hne : pySplitF marker fuel u ≠ [] := by
              intro h0; rw [h0] at hlen; simp at hlen
            rw [hsplit, getLast?_cons_ne _ _ hne, hl]
      · have hp2 : marker.isPrefixOf (c :: rest) = false := Bool.eq_false_iff.mpr hp
        have hrest : rest.length ≤ fuel := by
          have h2 : (c :: rest).length ≤ fuel + 1 := hs
          simp at h2; omega
        have hlast : lastOcc (c :: rest) = lastOcc rest :=
          lastOcc_cons_eq c rest hp2
        rcases ih rest hrest with ⟨hnone, heq⟩ | ⟨t, hsome, hlen, hl⟩
        · refine Or.inl ⟨?_, ?_⟩
          · rw [hlast, hnone]
          · simp [pySplitF, hp2, heq]
        · obtain ⟨p, ps, hps⟩ : ∃ p ps, pySplitF marker fuel rest = p :: ps := by
            cases hq : pySplitF marker fuel rest with
            | nil => rw [hq] at hlen; simp at hlen
            | cons p ps => exact ⟨p, ps, rfl⟩
          have hps_ne : ps ≠ [] := by
            intro h0
            rw [hps, h0] at hlen
            simp at hlen
          have hres : pySplitF marker (fuel + 1) (c :: rest) = (c :: p) :: ps := by
            simp [pySplitF, hp2, hps]
          refine Or.inr ⟨t, ?_, ?_, ?_⟩
          · rw [hlast, hsome]
          · rw [hres]
            rw [hps] at hlen
            simpa using hlen
          · rw [hps] at hl
            rw [hres, getLast?_cons_ne _ _ hps_ne,
              ← getLast?_cons_ne p ps hps_ne, hl]

theorem containsSub_eq_isSome (s : List Char) :
    containsSub marker s = (lastOcc s).isSome := by
  induction s with
  | nil => rfl
  | cons c rest ih =>
    cases hl : lastOcc rest with
    | none =>
      rw [hl] at ih
      by_cases hpfx : marker.isPrefixOf (c :: rest) = true
      · simp [containsSub, lastOcc, hl, hpfx]
      · have h2 : marker.isPrefixOf (c :: rest) = false := Bool.eq_false_iff.mpr hpfx
        simp [containsSub, lastOcc, hl, h2, ih]
    | some t =>
      rw [hl] at ih
      simp [containsSub, lastOcc, hl, ih]

theorem extract_eq_spec (raw : List Char) :
    extract_answer raw = extract_answer_spec raw := by
  by_cases hc : containsSub marker raw = true
  · have hsome : (lastOcc raw).isSome = true := by
      rw [← containsSub_eq_isSome]; exact hc
    obtain ⟨t, ht⟩ := Option.isSome_iff_exists.mp hsome
    have hraw : raw ≠ [] := by
      intro h0; subst h0; simp [containsSub] at hc
    rcases pySplitF_lastOcc raw.length raw le_rfl with ⟨hnone, _⟩ |
      ⟨t2, hsome2, _, hlastq⟩
    · rw [ht] at hnone; cases hnone
    · have ht2 : t2 = t := by
        rw [ht] at hsome2
        exact (Option.some_inj.mp hsome2).symm
      subst ht2
      simp only [extract_answer, extract_answer_spec, pySplit, hlastq, ht]
      simp [hraw, hc]
  · have hc2 : containsSub marker raw = false := by simpa using hc
    have hnone : lastOcc raw = none := by
      have h2 : (lastOcc raw).isSome = false := by
        rw [← containsSub_eq_isSome]; exact hc2
      exact Option.not_isSome_iff_eq_none.mp (by simp [h2])
    simp [extract_answer, extract_answer_spec, hc2, hnone]

theorem lastOcc_append_of_some {v : List Char} {t : List Char}
    (h : lastOcc v = some t) : ∀ u : List Char, lastOcc (u ++ v) = some t := by
  intro u
  induction u with
  | nil => simpa using h
  | cons c u2 ih => simp [lastOcc, ih]

/-- C9: `extract_answer` equals the reference definition: absence when the
marker does not occur; otherwise the substring after the last occurrence of
the marker, with surrounding whitespace stripped, all trailing periods
removed, all leading plus signs removed and every space deleted, returning
absence when that result is empty. -/
theorem c9_extract_answer_eq_reference :
    ∀ raw : List Char, extract_answer raw = extract_answer_spec raw :=
  extract_eq_spec

/-- C5: the three reference extraction shapes. Any text ending in
`FINAL ANSWER: 42.` extracts `42`; any text ending in `FINAL ANSWER: +7`
extracts `7`; any text not containing the marker yields absence. -/
theorem c5_marker_extraction_shapes :
    (∀ u : List Char,
      extract_answer (u ++ "FINAL ANSWER: 42.".data) = some ['4', '2']) ∧
    (∀ u : List Char,
      extract_answer (u ++ "FINAL ANSWER: +7".data) = some ['7']) ∧
    (∀ s : List Char, containsSub marker s = false → extract_answer s = none) := by
  refine ⟨?_, ?_, ?_⟩
  · intro u
    rw [extract_eq_spec]
    have h42 : lastOcc ("FINAL ANSWER: 42.".data) = some (' ' :: '4' :: '2' :: '.' :: []) := by
      decide
    simp only [extract_answer_spec, lastOcc_append_of_some h42 u]
    rfl
  · intro u
    rw [extract_eq_spec]
    have h7 : lastOcc ("FINAL ANSWER: +7".data) = some (' ' :: '+' :: '7' :: []) := by
      decide
    simp only [extract_answer_spec, lastOcc_append_of_some h7 u]
    rfl
  · intro s h
    simp [extract_answer, h]

theorem c5_witness :
    extract_answer ("Reasoning first. ".data ++ "FINAL ANSWER: 42.".data) =
      some ['4', '2'] ∧
    extract_answer ("x ".data ++ "FINAL ANSWER: +7".data) = some ['7'] ∧
    containsSub marker ("no marker here".data) = false ∧
    extract_answer ("no marker here".data) = none :=
  ⟨c5_marker_extraction_shapes.1 _, c5_marker_extraction_shapes.2.1 _,
    by decide, c5_marker_extraction_shapes.2.2 _ (by decide)⟩

theorem runAgentAux_step (http : Nat → HttpResult) (rem att : Nat) :
    runAgentAux http (rem + 1) att =
      if pyTruthy (extract_answer (ask_solver (http att))) then
        ⟨pyStrip ((extract_answer (ask_solver (http att))).getD []), 1, 1, []⟩
      else if rem = 0 then ⟨[], 1, 1, []⟩
      else
        ⟨(runAgentAux http rem (att + 1)).answer,
          (runAgentAux http rem (att + 1)).attempts + 1,
          (runAgentAux http rem (att + 1)).calls + 1,
          (att + 1) :: (runAgentAux http rem (att + 1)).sleeps⟩ := rfl

theorem runAgentAux_all_fail (http : Nat → HttpResult)
    (h : ∀ n, extract_answer (ask_solver (http n)) = none) :
    ∀ r att,
      runAgentAux http (r + 1) att = ⟨[], r + 1, r + 1, List.range' (att + 1) r⟩ := by
  intro r
  induction r with
  | zero =>
    intro att
    rw [runAgentAux_step]
    simp [h att, pyTruthy]
  | succ r2 ih =>
    intro att
    rw [runAgentAux_step]
    simp [h att, pyTruthy, Nat.succ_ne_zero, ih (att + 1), List.range'_succ]

/-- C4: when the solver yields absence on every call, `run_agent` with the
default `max_retries = 3` performs exactly 3 attempts (one external call
each), sleeps 1 second after attempt 1 and 2 seconds after attempt 2 with
no sleep after the final attempt (cumulative 3 seconds), and returns the
empty string instead of raising. -/
theorem c4_retry_exhaustion (http : Nat → HttpResult)
    (h : ∀ n, extract_answer (ask_solver (http n)) = none) :
    run_agent http 3 = ⟨[], 3, 3, [1, 2]⟩ ∧
    (run_agent http 3).sleeps.sum = 3 := by
  have e : run_agent http 3 = ⟨[], 3, 3, [1, 2]⟩ := by
    have h3 := runAgentAux_all_fail http h 2 0
    simpa [run_agent] using h3
  exact ⟨e, by rw [e]; rfl⟩

theorem c4_witness :
    (∀ n : Nat,
      extract_answer (ask_solver ((fun _ => HttpResult.raise) n)) = none) ∧
    run_agent (fun _ => HttpResult.raise) 3 = ⟨[], 3, 3, [1, 2]⟩ ∧
    (run_agent (fun _ => HttpResult.raise) 3).sleeps.sum = 3 :=
  ⟨fun _ => rfl, c4_retry_exhaustion (fun _ => HttpResult.raise) (fun _ => rfl)⟩

theorem runAgentAux_calls_eq_attempts (http : Nat → HttpResult) :
    ∀ rem att, (runAgentAux http rem att).calls =
      (runAgentAux http rem att).attempts := by
  intro rem
  induction rem with
  | zero => intro att; rfl
  | succ r ih =>
    intro att
    by_cases h : pyTruthy (extract_answer (ask_solver (http att))) = true
    · simp [runAgentAux, h]
    · have h2 : pyTruthy (extract_answer (ask_solver (http att))) = false :=
        Bool.eq_false_iff.mpr h
      by_cases hr : r = 0
      · simp [runAgentAux, h2, hr]
      · simp [runAgentAux, h2, hr, ih]

theorem transport_ask_solver_empty (h : HttpResult)
    (ht : transportFailure h) : ask_solver h = [] := by
  cases h with
  | raise => rfl
  | response status parsed =>
    rcases ht with hs | hp
    · simp [ask_solver, call_model_chat_completions, beq_false_of_ne hs]
    · subst hp
      cases h200 : (status == 200) <;>
        simp [ask_solver, call_model_chat_completions, h200]

/-- C8: the solver client issues exactly one external call per solve
attempt (calls = attempts across the retry loop), and on transport failure
or marker absence the attempt yields absence with every exception absorbed
(the embedded client is a total function into `Option`). -/
theorem c8_solver_client_absence (http : Nat → HttpResult) (m : Nat) :
    (run_agent http m).calls = (run_agent http m).attempts ∧
    ∀ h : HttpResult,
      (transportFailure h ∨ containsSub marker (ask_solver h) = false) →
      extract_answer (ask_solver h) = none := by
  constructor
  · exact runAgentAux_calls_eq_attempts http m 0
  · intro h hf
    rcases hf with ht | hm
    · rw [transport_ask_solver_empty h ht]
      rfl
    · simp [extract_answer, hm]

theorem chunkListF_flatten (B : Nat) (hB : 1 ≤ B) :
    ∀ fuel l, l.length ≤ fuel → (chunkListF B fuel l).flatten = l := by
  intro fuel
  induction fuel with
  | zero =>
    intro l hl
    have h0 : l = [] := List.eq_nil_of_length_eq_zero (Nat.le_zero.mp hl)
    subst h0; rfl
  | succ fuel ih =>
    intro l hl
    cases l with
    | nil => rfl
    | cons a l2 =>
      have hlen : ((a :: l2).drop B).length ≤ fuel := by
        simp only [List.length_drop, List.length_cons]
        simp only [List.length_cons] at hl
        omega
      simp only [chunkListF, List.flatten_cons, ih _ hlen]
      exact List.take_append_drop B (a :: l2)

theorem chunkListF_length_le (B : Nat) (hB : 1 ≤ B) :
    ∀ fuel l c, l.length ≤ fuel → c ∈ chunkListF B fuel l → c.length ≤ B := by
  intro fuel
  induction fuel with
  | zero =>
    intro l c hl hc
    have h0 : l = [] := List.eq_nil_of_length_eq_zero (Nat.le_zero.mp hl)
    subst h0; simp [chunkListF] at hc
  | succ fuel ih =>
    intro l c hl hc
    cases l with
    | nil => simp [chunkListF] at hc
    | cons a l2 =>
      simp only [chunkListF, List.mem_cons] at hc
      rcases hc with rfl | hc
      · simp [List.length_take]
      · refine ih _ _ ?_ hc
        simp only [List.length_drop, List.length_cons]
        simp only [List.length_cons] at hl
        omega

theorem chunkList_flatten (B : Nat) (hB : 1 ≤ B) (l : List Nat) :
    (chunkList B l).flatten = l :=
  chunkListF_flatten B hB l.length l le_rfl

theorem chunkList_mem_length_le (B : Nat) (hB : 1 ≤ B) (l : List Nat)
    (c : List Nat) (hc : c ∈ chunkList B l) : c.length ≤ B :=
  chunkListF_length_le B hB l.length l c le_rfl hc

theorem setAll_length (f : Nat → AnswerRec) :
    ∀ sigma a, (setAll f a sigma).length = a.length := by
  intro sigma
  induction sigma with
  | nil => intro a; rfl
  | cons i s ih =>
    intro a
    show (setAll f (a.set i (some (f i))) s).length = a.length
    rw [ih, List.length_set]

theorem setAll_getElem?_not_mem (f : Nat → AnswerRec) :
    ∀ sigma a j, j ∉ sigma → (setAll f a sigma)[j]? = a[j]? := by
  intro sigma
  induction sigma with
  | nil => intro a j _; rfl
  | cons i s ih =>
    intro a j h
    have hij : i ≠ j := fun e => h (e ▸ List.mem_cons_self i s)
    have hjs : j ∉ s := fun e => h (List.mem_cons_of_mem i e)
    show (setAll f (a.set i (some (f i))) s)[j]? = a[j]?
    rw [ih _ _ hjs, List.getElem?_set_ne hij]

theorem setAll_getElem?_mem (f : Nat → AnswerRec) :
    ∀ sigma a j, j ∈ sigma → j < a.length →
      (setAll f a sigma)[j]? = some (some (f j)) := by
  intro sigma
  induction sigma with
  | nil => intro a j h _; simp at h
  | cons i s ih =>
    intro a j hj hlt
    by_cases hs : j ∈ s
    · show (setAll f (a.set i (some (f i))) s)[j]? = _
      exact ih _ _ hs (by rw [List.length_set]; exact hlt)
    · have hji : j = i := by
        rcases List.mem_cons.mp hj with h | h
        · exact h
        · exact absurd h hs
      subst hji
      show (setAll f (a.set j (some (f j))) s)[j]? = _
      rw [setAll_getElem?_not_mem f s _ j hs, List.getElem?_set_self hlt]

theorem setAll_append (f : Nat → AnswerRec) (s1 s2 : List Nat)
    (a : List (Option AnswerRec)) :
    setAll f a (s1 ++ s2) = setAll f (setAll f a s1) s2 :=
  List.foldl_append _ _ _ _

theorem snapTrail_append (f : Nat → AnswerRec) :
    ∀ s1 s2 a, snapTrail f a (s1 ++ s2) =
      snapTrail f a s1 ++ snapTrail f (setAll f a s1) s2 := by
  intro s1
  induction s1 with
  | nil => intro s2 a; rfl
  | cons i s ih =>
    intro s2 a
    show renderAnswers (a.set i (some (f i))) ::
        snapTrail f (a.set i (some (f i))) (s ++ s2) = _
    rw [ih]
    rfl

theorem snapTrail_getElem? (f : Nat → AnswerRec) :
    ∀ sigma a k snap, (snapTrail f a sigma)[k]? = some snap →
      snap = renderAnswers (setAll f a (sigma.take (k + 1))) := by
  intro sigma
  induction sigma with
  | nil => intro a k snap h; simp [snapTrail] at h
  | cons i s ih =>
    intro a k snap h
    cases k with
    | zero =>
      have h0 : snap = renderAnswers (a.set i (some (f i))) := by
        simpa [snapTrail] using h.symm
      rw [h0, List.take_succ_cons]
      rfl
    | succ k2 =>
      have h2 : (snapTrail f (a.set i (some (f i))) s)[k2]? = some snap := by
        simpa [snapTrail] using h
      rw [List.take_succ_cons]
      exact ih _ _ _ h2

theorem snapTrail_length (f : Nat → AnswerRec) :
    ∀ sigma a, (snapTrail f a sigma).length = sigma.length := by
  intro sigma
  induction sigma with
  | nil => intro a; rfl
  | cons i s ih =>
    intro a
    show (renderAnswers _ :: snapTrail f _ s).length = _
    simp [ih]

theorem renderAnswers_length (a : List (Option AnswerRec)) :
    (renderAnswers a).length = a.length := by
  simp [renderAnswers]

theorem renderAnswers_getElem? (a : List (Option AnswerRec)) (j : Nat) :
    (renderAnswers a)[j]? = (a[j]?).map (fun o => o.getD ⟨[]⟩) := by
  simp [renderAnswers]

theorem foldCompletions (task : Nat → List Char → TaskOutcome)
    (qtxt : Nat → List Char) :
    ∀ (pi : List Nat) (st : BatchState),
      (pi.foldl (processCompletion task qtxt) st).answers =
        setAll (fun i => taskAnswer (task i (qtxt i))) st.answers pi ∧
      (pi.foldl (processCompletion task qtxt) st).events =
        st.events ++ pi.flatMap completionBlock ∧
      (pi.foldl (processCompletion task qtxt) st).snapshots =
        st.snapshots ++
          snapTrail (fun i => taskAnswer (task i (qtxt i))) st.answers pi := by
  intro pi
  induction pi with
  | nil => intro st; exact ⟨rfl, by simp, by simp [snapTrail]⟩
  | cons i s ih =>
    intro st
    obtain ⟨h1, h2, h3⟩ := ih (processCompletion task qtxt st i)
    refine ⟨?_, ?_, ?_⟩
    · rw [List.foldl_cons, h1]; rfl
    · rw [List.foldl_cons, h2]
      show (st.events ++ completionBlock i) ++ _ = _
      rw [List.append_assoc]
      rfl
    · rw [List.foldl_cons, h3]
      show (st.snapshots ++ [renderAnswers _]) ++ _ = _
      rw [List.append_assoc]
      rfl

theorem processChunk_fields (task : Nat → List Char → TaskOutcome)
    (qtxt : Nat → List Char) (st : BatchState) (Iπ : List Nat × List Nat) :
    (processChunk task qtxt st Iπ).answers =
      setAll (fun i => taskAnswer (task i (qtxt i))) st.answers Iπ.2 ∧
    (processChunk task qtxt st Iπ).events =
      st.events ++ chunkTrace qtxt Iπ ∧
    (processChunk task qtxt st Iπ).snapshots =
      st.snapshots ++
        snapTrail (fun i => taskAnswer (task i (qtxt i))) st.answers Iπ.2 := by
  obtain ⟨h1, h2, h3⟩ := foldCompletions task qtxt Iπ.2
    { st with events := st.events ++ Iπ.1.map (fun i => Event.start i (qtxt i)) }
  refine ⟨h1, ?_, h3⟩
  rw [processChunk, h2, chunkTrace, List.append_assoc]

theorem foldChunks (task : Nat → List Char → TaskOutcome)
    (qtxt : Nat → List Char) :
    ∀ (cs : List (List Nat × List Nat)) (st : BatchState),
      (cs.foldl (processChunk task qtxt) st).answers =
        setAll (fun i => taskAnswer (task i (qtxt i))) st.answers
          (cs.flatMap (fun p => p.2)) ∧
      (cs.foldl (processChunk task qtxt) st).events =
        st.events ++ (cs.map (chunkTrace qtxt)).flatten ∧
      (cs.foldl (processChunk task qtxt) st).snapshots =
        st.snapshots ++ snapTrail (fun i => taskAnswer (task i (qtxt i)))
          st.answers (cs.flatMap (fun p => p.2)) := by
  intro cs
  induction cs with
  | nil => intro st; exact ⟨rfl, by simp, by simp [snapTrail]⟩
  | cons c cs2 ih =>
    intro st
    obtain ⟨g1, g2, g3⟩ := processChunk_fields task qtxt st c
    obtain ⟨h1, h2, h3⟩ := ih (processChunk task qtxt st c)
    refine ⟨?_, ?_, ?_⟩
    · rw [List.foldl_cons, h1, g1, List.flatMap_cons, setAll_append]
    · rw [List.foldl_cons, h2, g2, List.map_cons, List.flatten_cons,
        List.append_assoc]
    · rw [List.foldl_cons, h3, g3, g1, List.flatMap_cons, snapTrail_append,
        List.append_assoc]

theorem run_output_def (questions : List Question)
    (task : Nat → List Char → TaskOutcome) (sched : List (List Nat)) :
    (generate_all_answers questions task sched).1 =
      renderAnswers (generate_all_answers questions task sched).2.answers := rfl

theorem run_answers_eq (questions : List Question)
    (task : Nat → List Char → TaskOutcome) (sched : List (List Nat)) :
    (generate_all_answers questions task sched).2.answers =
      setAll (fun i => taskAnswer (task i (questionText questions i)))
        (List.replicate questions.length (Option.none))
        (((chunkList BATCH_SIZE (List.range questions.length)).zip
          sched).flatMap (fun p => p.2)) :=
  (foldChunks task (questionText questions) _ (initState questions.length)).1

theorem run_events_eq (questions : List Question)
    (task : Nat → List Char → TaskOutcome) (sched : List (List Nat)) :
    (generate_all_answers questions task sched).2.events =
      ((((chunkList BATCH_SIZE (List.range questions.length)).zip
        sched)).map (chunkTrace (questionText questions))).flatten := by
  have h := (foldChunks task (questionText questions)
    ((chunkList BATCH_SIZE (List.range questions.length)).zip sched)
    (initState questions.length)).2.1
  simpa [initState] using h

theorem run_snapshots_eq (questions : List Question)
    (task : Nat → List Char → TaskOutcome) (sched : List (List Nat)) :
    (generate_all_answers questions task sched).2.snapshots =
      snapTrail (fun i => taskAnswer (task i (questionText questions i)))
        (List.replicate questions.length (Option.none))
        (((chunkList BATCH_SIZE (List.range questions.length)).zip
          sched).flatMap (fun p => p.2)) := by
  have h := (foldChunks task (questionText questions)
    ((chunkList BATCH_SIZE (List.range questions.length)).zip sched)
    (initState questions.length)).2.2
  simpa [initState] using h

theorem zip_flatMap_perm {sched chunks : List (List Nat)}
    (h : List.Forall₂ (fun pi I => pi.Perm I) sched chunks) :
    ((chunks.zip sched).flatMap (fun p => p.2)).Perm chunks.flatten := by
  induction h with
  | nil => exact List.Perm.refl []
  | cons hab htl ih =>
    simp only [List.zip_cons_cons, List.flatMap_cons, List.flatten_cons]
    exact List.Perm.append hab ih

theorem run_output_get (questions : List Question)
    (task : Nat → List Char → TaskOutcome) (sched : List (List Nat))
    (h : ValidSched questions.length sched) :
    (generate_all_answers questions task sched).1.length = questions.length ∧
    ∀ j, j < questions.length →
      (generate_all_answers questions task sched).1[j]? =
        some (taskAnswer (task j (questionText questions j))) := by
  have hans := run_answers_eq questions task sched
  have hperm :
      ((((chunkList BATCH_SIZE (List.range questions.length)).zip
        sched)).flatMap (fun p => p.2)).Perm (List.range questions.length) := by
    have hp := zip_flatMap_perm h
    rwa [chunkList_flatten BATCH_SIZE (by decide)] at hp
  constructor
  · rw [run_output_def, renderAnswers_length, hans, setAll_length,
      List.length_replicate]
  · intro j hj
    have hmem := hperm.mem_iff.mpr (List.mem_range.mpr hj)
    rw [run_output_def, renderAnswers_getElem?, hans,
      setAll_getElem?_mem _ _ _ _ hmem (by simpa using hj)]
    rfl

theorem fileInv_foldCompletions (task : Nat → List Char → TaskOutcome)
    (qtxt : Nat → List Char) :
    ∀ (pi : List Nat) (st : BatchState), st.fileContent = st.snapshots.getLast? →
      (pi.foldl (processCompletion task qtxt) st).fileContent =
        (pi.foldl (processCompletion task qtxt) st).snapshots.getLast? := by
  intro pi
  induction pi with
  | nil => intro st h; exact h
  | cons i s ih =>
    intro st _
    refine ih _ ?_
    show some (renderAnswers _) = (st.snapshots ++ [renderAnswers _]).getLast?
    rw [List.getLast?_concat]

theorem fileInv_foldChunks (task : Nat → List Char → TaskOutcome)
    (qtxt : Nat → List Char) :
    ∀ (cs : List (List Nat × List Nat)) (st : BatchState),
      st.fileContent = st.snapshots.getLast? →
      (cs.foldl (processChunk task qtxt) st).fileContent =
        (cs.foldl (processChunk task qtxt) st).snapshots.getLast? := by
  intro cs
  induction cs with
  | nil => intro st h; exact h
  | cons c cs2 ih =>
    intro st h
    refine ih _ ?_
    exact fileInv_foldCompletions task qtxt c.2 _ h

theorem run_fileContent (questions : List Question)
    (task : Nat → List Char → TaskOutcome) (sched : List (List Nat)) :
    (generate_all_answers questions task sched).2.fileContent =
      (generate_all_answers questions task sched).2.snapshots.getLast? :=
  fileInv_foldChunks task (questionText questions) _ (initState questions.length)
    rfl

/-- C1: for every question list, `generate_all_answers` returns a list of
exactly the same length, and the record at index `i` is the answer produced
for question `i`; the right-hand side does not mention the completion
schedule, so the result is independent of the order in which tasks
complete. -/
theorem c1_output_aligned_with_input (questions : List Question)
    (task : Nat → List Char → TaskOutcome) (sched : List (List Nat))
    (h : ValidSched questions.length sched) :
    (generate_all_answers questions task sched).1.length = questions.length ∧
    ∀ j, j < questions.length →
      (generate_all_answers questions task sched).1[j]? =
        some (taskAnswer (task j (questionText questions j))) :=
  run_output_get questions task sched h

theorem c1_witness :
    ValidSched 3 [[2, 0, 1]] ∧
    (generate_all_answers [some ['a'], Option.none, some ['b']]
      (fun _ t => TaskOutcome.ok t) [[2, 0, 1]]).1.length = 3 ∧
    (generate_all_answers [some ['a'], Option.none, some ['b']]
      (fun _ t => TaskOutcome.ok t) [[2, 0, 1]]).1[2]? = some ⟨['b']⟩ := by
  have h : ValidSched 3 [[2, 0, 1]] := by decide
  have hc := c1_output_aligned_with_input [some ['a'], Option.none, some ['b']]
    (fun _ t => TaskOutcome.ok t) [[2, 0, 1]] h
  refine ⟨h, hc.1, ?_⟩
  have h2 := hc.2 2 (by decide)
  rw [h2]
  rfl

/-- C2: if the task for question `i` raises, the scheduler catches it at
the per-task boundary, fills slot `i` with the empty-output record, and
the batch still returns a full-length list with every other index filled
normally. -/
theorem c2_exception_isolated (questions : List Question)
    (task : Nat → List Char → TaskOutcome) (sched : List (List Nat)) (i : Nat)
    (h : ValidSched questions.length sched) (hi : i < questions.length)
    (hexn : task i (questionText questions i) = TaskOutcome.exn) :
    (generate_all_answers questions task sched).1.length = questions.length ∧
    (generate_all_answers questions task sched).1[i]? = some ⟨[]⟩ ∧
    ∀ j, j < questions.length → j ≠ i →
      (generate_all_answers questions task sched).1[j]? =
        some (taskAnswer (task j (questionText questions j))) := by
  obtain ⟨hlen, hget⟩ := run_output_get questions task sched h
  refine ⟨hlen, ?_, fun j hj _ => hget j hj⟩
  rw [hget i hi, hexn]
  rfl

theorem c2_witness :
    ValidSched 3 [[1, 2, 0]] ∧
    (fun i (_ : List Char) =>
      if i = 1 then TaskOutcome.exn else TaskOutcome.ok ['x']) 1
        (questionText [some ['a'], some ['b'], some ['c']] 1) =
      TaskOutcome.exn ∧
    (generate_all_answers [some ['a'], some ['b'], some ['c']]
      (fun i _ => if i = 1 then TaskOutcome.exn else TaskOutcome.ok ['x'])
      [[1, 2, 0]]).1[1]? = some ⟨[]⟩ ∧
    (generate_all_answers [some ['a'], some ['b'], some ['c']]
      (fun i _ => if i = 1 then TaskOutcome.exn else TaskOutcome.ok ['x'])
      [[1, 2, 0]]).1[0]? = some ⟨['x']⟩ := by
  have h : ValidSched 3 [[1, 2, 0]] := by decide
  have hc := c2_exception_isolated [some ['a'], some ['b'], some ['c']]
    (fun i _ => if i = 1 then TaskOutcome.exn else TaskOutcome.ok ['x'])
    [[1, 2, 0]] 1 h (by decide) rfl
  refine ⟨h, rfl, hc.2.1, ?_⟩
  have h0 := hc.2.2 0 (by decide) (by decide)
  rw [h0]
  rfl

theorem run_start_event (questions : List Question)
    (task : Nat → List Char → TaskOutcome) (sched : List (List Nat))
    (h : ValidSched questions.length sched) (i : Nat)
    (hi : i < questions.length) :
    Event.start i (questionText questions i) ∈
      (generate_all_answers questions task sched).2.events := by
  have hmem : i ∈ (chunkList BATCH_SIZE (List.range questions.length)).flatten := by
    rw [chunkList_flatten BATCH_SIZE (by decide)]
    exact List.mem_range.mpr hi
  obtain ⟨I, hI, hiI⟩ := List.mem_flatten.mp hmem
  obtain ⟨k, hk⟩ := List.mem_iff_getElem?.mp hI
  have hklt : k < sched.length := by
    rw [h.length_eq]
    exact (List.getElem?_eq_some.mp hk).1
  obtain ⟨pi, hpi⟩ : ∃ pi, sched[k]? = some pi :=
    ⟨_, List.getElem?_eq_getElem hklt⟩
  have hzip : (I, pi) ∈
      (chunkList BATCH_SIZE (List.range questions.length)).zip sched :=
    List.mem_iff_getElem?.mpr ⟨k, List.getElem?_zip_eq_some.mpr ⟨hk, hpi⟩⟩
  rw [run_events_eq]
  refine List.mem_flatten.mpr ⟨chunkTrace (questionText questions) (I, pi),
    List.mem_map.mpr ⟨(I, pi), hzip, rfl⟩, ?_⟩
  exact List.mem_append_left _ (List.mem_map.mpr ⟨i, hiI, rfl⟩)

/-- C10: a question record lacking the `input` field does not make the
scheduler fail: the task is dispatched with the empty string as question
text, and that slot is still filled in the final answer list. -/
theorem c10_missing_input_field (questions : List Question)
    (task : Nat → List Char → TaskOutcome) (sched : List (List Nat)) (i : Nat)
    (h : ValidSched questions.length sched)
    (hq : questions[i]? = some (Option.none)) :
    Event.start i [] ∈ (generate_all_answers questions task sched).2.events ∧
    (generate_all_answers questions task sched).1[i]? =
      some (taskAnswer (task i [])) := by
  have hi : i < questions.length := (List.getElem?_eq_some.mp hq).1
  have hqt : questionText questions i = [] := by
    simp [questionText, getInput, hq]
  constructor
  · have hs := run_start_event questions task sched h i hi
    rwa [hqt] at hs
  · have ho := (run_output_get questions task sched h).2 i hi
    rwa [hqt] at ho

theorem c10_witness :
    ValidSched 2 [[1, 0]] ∧
    ([some ['a'], Option.none] : List Question)[1]? = some (Option.none) ∧
    Event.start 1 [] ∈ (generate_all_answers [some ['a'], Option.none]
      (fun _ _ => TaskOutcome.ok ['y']) [[1, 0]]).2.events ∧
    (generate_all_answers [some ['a'], Option.none]
      (fun _ _ => TaskOutcome.ok ['y']) [[1, 0]]).1[1]? =
      some (taskAnswer (TaskOutcome.ok ['y'])) := by
  have h : ValidSched 2 [[1, 0]] := by decide
  have hc := c10_missing_input_field [some ['a'], Option.none]
    (fun _ _ => TaskOutcome.ok ['y']) [[1, 0]] 1 h rfl
  exact ⟨h, rfl, hc.1, hc.2⟩

/-- C7: every snapshot persisted after a slot completion has exactly one
entry per question, in original order, each an `output` record; a slot
whose completion is not among the first `k + 1` processed renders as the
empty-output record, never omitted; and the file holds exactly the last
snapshot written, i.e. it is overwritten, not appended to. -/
theorem c7_snapshot_shape (questions : List Question)
    (task : Nat → List Char → TaskOutcome) (sched : List (List Nat))
    (_h : ValidSched questions.length sched) :
    (∀ k snap,
      (generate_all_answers questions task sched).2.snapshots[k]? = some snap →
      snap.length = questions.length ∧
      ∀ j, j < questions.length →
        snap[j]? = some
          (if j ∈ ((((chunkList BATCH_SIZE (List.range questions.length)).zip
                sched).flatMap (fun p => p.2)).take (k + 1))
            then taskAnswer (task j (questionText questions j))
            else ⟨[]⟩)) ∧
    (generate_all_answers questions task sched).2.fileContent =
      (generate_all_answers questions task sched).2.snapshots.getLast? := by
  refine ⟨?_, run_fileContent questions task sched⟩
  intro k snap hk
  rw [run_snapshots_eq] at hk
  have hsnap := snapTrail_getElem? _ _ _ _ _ hk
  constructor
  · rw [hsnap, renderAnswers_length, setAll_length, List.length_replicate]
  · intro j hj
    rw [hsnap, renderAnswers_getElem?]
    by_cases hm : j ∈ ((((chunkList BATCH_SIZE
        (List.range questions.length)).zip sched).flatMap
          (fun p => p.2)).take (k + 1))
    · rw [setAll_getElem?_mem _ _ _ _ hm (by simpa using hj), if_pos hm]
      rfl
    · rw [setAll_getElem?_not_mem _ _ _ _ hm, if_neg hm,
        List.getElem?_replicate, if_pos hj]
      rfl

theorem c7_witness :
    ValidSched 2 [[1, 0]] ∧
    (generate_all_answers [some ['a'], some ['b']]
      (fun _ t => TaskOutcome.ok t) [[1, 0]]).2.snapshots[0]? =
      some [⟨[]⟩, ⟨['b']⟩] ∧
    ([⟨[]⟩, ⟨['b']⟩] : List AnswerRec).length = 2 ∧
    (generate_all_answers [some ['a'], some ['b']]
      (fun _ t => TaskOutcome.ok t) [[1, 0]]).2.fileContent =
      (generate_all_answers [some ['a'], some ['b']]
      (fun _ t => TaskOutcome.ok t) [[1, 0]]).2.snapshots.getLast? := by
  have h : ValidSched 2 [[1, 0]] := by decide
  have hc := c7_snapshot_shape [some ['a'], some ['b']]
    (fun _ t => TaskOutcome.ok t) [[1, 0]] h
  have hs : (generate_all_answers [some ['a'], some ['b']]
      (fun _ t => TaskOutcome.ok t) [[1, 0]]).2.snapshots[0]? =
      some [⟨[]⟩, ⟨['b']⟩] := by decide
  exact ⟨h, hs, (hc.1 0 _ hs).1, hc.2⟩

theorem c8_witness :
    (run_agent (fun _ => HttpResult.raise) 3).calls =
      (run_agent (fun _ => HttpResult.raise) 3).attempts ∧
    transportFailure HttpResult.raise ∧
    extract_answer (ask_solver HttpResult.raise) = none :=
  ⟨(c8_solver_client_absence (fun _ => HttpResult.raise) 3).1, trivial,
    (c8_solver_client_absence (fun _ => HttpResult.raise) 3).2 _
      (Or.inl trivial)⟩

theorem wfb_starts (qtxt : Nat → List Char) :
    ∀ (I : List Nat) (tr : List Event),
      wellFormedBlocks (I.map (fun i => Event.start i (qtxt i)) ++ tr) =
        wellFormedBlocks tr := by
  intro I
  induction I with
  | nil => intro tr; rfl
  | cons i s ih => intro tr; simpa [wellFormedBlocks] using ih tr

theorem wfb_blocks :
    ∀ (pi : List Nat) (tr : List Event),
      wellFormedBlocks (pi.flatMap completionBlock ++ tr) =
        wellFormedBlocks tr := by
  intro pi
  induction pi with
  | nil => intro tr; rfl
  | cons i s ih => intro tr; simpa [completionBlock, wellFormedBlocks] using ih tr

theorem wfb_flatten (qtxt : Nat → List Char) :
    ∀ (cs : List (List Nat × List Nat)),
      wellFormedBlocks ((cs.map (chunkTrace qtxt)).flatten) = true := by
  intro cs
  induction cs with
  | nil => rfl
  | cons c cs2 ih =>
    rw [List.map_cons, List.flatten_cons, chunkTrace, List.append_assoc,
      wfb_starts, wfb_blocks]
    exact ih

theorem pg_starts (qtxt : Nat → List Char) :
    ∀ (I : List Nat) (d : Nat) (tr : List Event),
      persistsGuardedFrom d (I.map (fun i => Event.start i (qtxt i)) ++ tr) =
        persistsGuardedFrom d tr := by
  intro I
  induction I with
  | nil => intro d tr; rfl
  | cons i s ih => intro d tr; simpa [persistsGuardedFrom] using ih d tr

theorem pg_block (i : Nat) (d : Nat) (tr : List Event) :
    persistsGuardedFrom d (completionBlock i ++ tr) =
      persistsGuardedFrom d tr := by
  simp [completionBlock, persistsGuardedFrom]

theorem pg_blocks :
    ∀ (pi : List Nat) (d : Nat) (tr : List Event),
      persistsGuardedFrom d (pi.flatMap completionBlock ++ tr) =
        persistsGuardedFrom d tr := by
  intro pi
  induction pi with
  | nil => intro d tr; rfl
  | cons i s ih =>
    intro d tr
    rw [List.flatMap_cons, List.append_assoc, pg_block]
    exact ih d tr

theorem pg_flatten (qtxt : Nat → List Char) :
    ∀ (cs : List (List Nat × List Nat)) (d : Nat),
      persistsGuardedFrom d ((cs.map (chunkTrace qtxt)).flatten) = true := by
  intro cs
  induction cs with
  | nil => intro d; rfl
  | cons c cs2 ih =>
    intro d
    rw [List.map_cons, List.flatten_cons, chunkTrace, List.append_assoc,
      pg_starts, pg_blocks]
    exact ih d

theorem c6_counterexample :
    ¬ SpecLockDiscipline (generate_all_answers [some ['q']]
      (fun _ _ => TaskOutcome.ok []) [[0]]).2.events := by
  decide

/-- C6 (amended): every snapshot persistence happens while the single
guard is held, and each completion's trace is exactly slot write, then
acquire, then persist, then release, then progress recomputation — so the
slot mutation itself happens immediately before the guard is acquired
(not under it), the snapshot is persisted before that guard is released,
and the progress counters are recomputed after the release. -/
theorem c6_amended_lock_discipline (questions : List Question)
    (task : Nat → List Char → TaskOutcome) (sched : List (List Nat)) :
    persistsGuardedFrom 0
      (generate_all_answers questions task sched).2.events = true ∧
    wellFormedBlocks (generate_all_answers questions task sched).2.events =
      true := by
  rw [run_events_eq]
  exact ⟨pg_flatten (questionText questions) _ 0,
    wfb_flatten (questionText questions) _⟩

theorem countP_start_map (qtxt : Nat → List Char) (I : List Nat) :
    (I.map (fun i => Event.start i (qtxt i))).countP isStart = I.length := by
  induction I with
  | nil => rfl
  | cons i s ih => simp [List.countP_cons, isStart, ih]

theorem countP_complete_map (qtxt : Nat → List Char) (I : List Nat) :
    (I.map (fun i => Event.start i (qtxt i))).countP isComplete = 0 := by
  induction I with
  | nil => rfl
  | cons i s ih => simp [List.countP_cons, isComplete, ih]

theorem countP_start_blocks (pi : List Nat) :
    (pi.flatMap completionBlock).countP isStart = 0 := by
  induction pi with
  | nil => rfl
  | cons i s ih =>
    rw [List.flatMap_cons, List.countP_append, ih]
    rfl

theorem countP_complete_blocks (pi : List Nat) :
    (pi.flatMap completionBlock).countP isComplete = pi.length := by
  induction pi with
  | nil => rfl
  | cons i s ih =>
    rw [List.flatMap_cons, List.countP_append, ih]
    have h1 : (completionBlock i).countP isComplete = 1 := rfl
    rw [h1, List.length_cons]
    omega

theorem countP_start_chunkTrace (qtxt : Nat → List Char)
    (Iπ : List Nat × List Nat) :
    (chunkTrace qtxt Iπ).countP isStart = Iπ.1.length := by
  rw [chunkTrace, List.countP_append, countP_start_map, countP_start_blocks]
  omega

theorem countP_complete_chunkTrace (qtxt : Nat → List Char)
    (Iπ : List Nat × List Nat) :
    (chunkTrace qtxt Iπ).countP isComplete = Iπ.2.length := by
  rw [chunkTrace, List.countP_append, countP_complete_map,
    countP_complete_blocks]
  omega

theorem flatten_prefix_bound (B : Nat) :
    ∀ (Ts : List (List Event)),
      (∀ T ∈ Ts, T.countP isStart = T.countP isComplete ∧
        T.countP isStart ≤ B) →
      ∀ n, ((Ts.flatten).take n).countP isStart ≤
        ((Ts.flatten).take n).countP isComplete + B := by
  intro Ts
  induction Ts with
  | nil => intro _ n; simp
  | cons T Ts2 ih =>
    intro hT n
    have hhead := hT T (List.mem_cons_self T Ts2)
    rw [List.flatten_cons, List.take_append_eq_append_take, List.countP_append,
      List.countP_append]
    by_cases hn : n ≤ T.length
    · have h0 : n - T.length = 0 := by omega
      rw [h0]
      have hle : (T.take n).countP isStart ≤ T.countP isStart :=
        List.Sublist.countP_le isStart (List.take_sublist n T)
      simp only [List.take_zero, List.countP_nil]
      omega
    · have hTn : T.take n = T := List.take_of_length_le (by omega)
      rw [hTn, hhead.1]
      have hrec := ih (fun T2 h2 => hT T2 (List.mem_cons_of_mem _ h2))
        (n - T.length)
      omega

theorem forall₂_zip_mem {R : List Nat → List Nat → Prop} :
    ∀ {sched chunks : List (List Nat)}, List.Forall₂ R sched chunks →
      ∀ p ∈ chunks.zip sched, R p.2 p.1 := by
  intro sched chunks h
  induction h with
  | nil => intro p hp; simp at hp
  | cons h1 h2 ih =>
    intro p hp
    rw [List.zip_cons_cons, List.mem_cons] at hp
    rcases hp with rfl | hp
    · exact h1
    · exact ih p hp

theorem start_not_mem_blocks (j : Nat) (t : List Char) (pi : List Nat) :
    Event.start j t ∉ pi.flatMap completionBlock := by
  intro hmem
  obtain ⟨i, _, hblk⟩ := List.mem_flatMap.mp hmem
  simp [completionBlock] at hblk

theorem start_mem_chunkTrace (qtxt : Nat → List Char)
    (Iπ : List Nat × List Nat) (j : Nat) (t : List Char)
    (h : Event.start j t ∈ chunkTrace qtxt Iπ) : j ∈ Iπ.1 := by
  rw [chunkTrace] at h
  rcases List.mem_append.mp h with hl | hr
  · obtain ⟨i, hi, heq⟩ := List.mem_map.mp hl
    cases heq
    exact hi
  · exact absurd hr (start_not_mem_blocks j t Iπ.2)

/-- C3: the scheduler partitions the index list into consecutive chunks of
at most `BATCH_SIZE` in original order (their concatenation is the index
list); at every point of the trace at most `BATCH_SIZE` tasks have started
but not completed; and for consecutive chunks there is a cut of the trace
with every completion of the earlier chunk before it and no dispatch of
the later chunk before it. -/
theorem c3_chunk_partition_bound_barrier (questions : List Question)
    (task : Nat → List Char → TaskOutcome) (sched : List (List Nat))
    (h : ValidSched questions.length sched)
    (_hN : BATCH_SIZE < questions.length) :
    ((chunkList BATCH_SIZE (List.range questions.length)).flatten =
        List.range questions.length ∧
      ∀ c ∈ chunkList BATCH_SIZE (List.range questions.length),
        c.length ≤ BATCH_SIZE) ∧
    (∀ n,
      (((generate_all_answers questions task sched).2.events.take n).countP
        isStart) ≤
      (((generate_all_answers questions task sched).2.events.take n).countP
        isComplete) + BATCH_SIZE) ∧
    (∀ k I J,
      (chunkList BATCH_SIZE (List.range questions.length))[k]? = some I →
      (chunkList BATCH_SIZE (List.range questions.length))[k + 1]? = some J →
      ∃ pre post,
        (generate_all_answers questions task sched).2.events = pre ++ post ∧
        (∀ i ∈ I, Event.complete i ∈ pre) ∧
        (∀ j ∈ J, ∀ t, Event.start j t ∉ pre)) := by
  refine ⟨⟨chunkList_flatten BATCH_SIZE (by decide) _,
    fun c hc => chunkList_mem_length_le BATCH_SIZE (by decide) _ c hc⟩, ?_, ?_⟩
  · intro n
    rw [run_events_eq]
    refine flatten_prefix_bound BATCH_SIZE _ ?_ n
    intro T hT
    obtain ⟨p, hp, rfl⟩ := List.mem_map.mp hT
    have hperm : p.2.Perm p.1 := forall₂_zip_mem h p hp
    have hmem : p.1 ∈ chunkList BATCH_SIZE (List.range questions.length) := by
      have hp2 := List.of_mem_zip (a := p.1) (b := p.2) (by simpa using hp)
      exact hp2.1
    constructor
    · rw [countP_start_chunkTrace, countP_complete_chunkTrace, hperm.length_eq]
    · rw [countP_start_chunkTrace]
      exact chunkList_mem_length_le BATCH_SIZE (by decide) _ p.1 hmem
  · intro k I J hI hJ
    have hklt : k < sched.length := by
      rw [h.length_eq]
      exact (List.getElem?_eq_some.mp hI).1
    obtain ⟨pi, hpi⟩ : ∃ pi, sched[k]? = some pi :=
      ⟨_, List.getElem?_eq_getElem hklt⟩
    have hzipk :
        ((chunkList BATCH_SIZE (List.range questions.length)).zip
          sched)[k]? = some (I, pi) :=
      List.getElem?_zip_eq_some.mpr ⟨hI, hpi⟩
    have hperm : pi.Perm I :=
      forall₂_zip_mem h (I, pi) (List.mem_iff_getElem?.mpr ⟨k, hzipk⟩)
    refine ⟨(((((chunkList BATCH_SIZE (List.range questions.length)).zip
        sched)).map (chunkTrace (questionText questions))).take
          (k + 1)).flatten,
      (((((chunkList BATCH_SIZE (List.range questions.length)).zip
        sched)).map (chunkTrace (questionText questions))).drop
          (k + 1)).flatten, ?_, ?_, ?_⟩
    · rw [run_events_eq, ← List.flatten_append, List.take_append_drop]
    · intro i hiI
      have hTk : (((((chunkList BATCH_SIZE
          (List.range questions.length)).zip sched)).map
            (chunkTrace (questionText questions))).take (k + 1))[k]? =
              some (chunkTrace (questionText questions) (I, pi)) := by
        rw [List.getElem?_take, if_pos (Nat.lt_succ_self k),
          List.getElem?_map, hzipk]
        rfl
      refine List.mem_flatten.mpr
        ⟨chunkTrace (questionText questions) (I, pi),
          List.mem_iff_getElem?.mpr ⟨k, hTk⟩, ?_⟩
      rw [chunkTrace]
      refine List.mem_append_right _ ?_
      refine List.mem_flatMap.mpr ⟨i, hperm.mem_iff.mpr hiI, ?_⟩
      simp [completionBlock]
    · intro j hjJ t hpre
      obtain ⟨T, hTmem, hjT⟩ := List.mem_flatten.mp hpre
      obtain ⟨m, hm⟩ := List.mem_iff_getElem?.mp hTmem
      rw [List.getElem?_take] at hm
      by_cases hmk : m < k + 1
      · rw [if_pos hmk, List.getElem?_map] at hm
        cases hzm : (((chunkList BATCH_SIZE
            (List.range questions.length)).zip sched))[m]? with
        | none => rw [hzm] at hm; cases hm
        | some p =>
          rw [hzm] at hm
          have hTp : T = chunkTrace (questionText questions) p := by
            simpa using hm.symm
          have hjp : j ∈ p.1 := by
            rw [hTp] at hjT
            exact start_mem_chunkTrace _ p j t hjT
          have hp1 : (chunkList BATCH_SIZE
              (List.range questions.length))[m]? = some p.1 :=
            (List.getElem?_zip_eq_some.mp hzm).1
          have hjtake : j ∈ ((chunkList BATCH_SIZE
              (List.range questions.length)).take (k + 1)).flatten := by
            refine List.mem_flatten.mpr ⟨p.1, ?_, hjp⟩
            refine List.mem_iff_getElem?.mpr ⟨m, ?_⟩
            rw [List.getElem?_take, if_pos hmk]
            exact hp1
          have hjdrop : j ∈ ((chunkList BATCH_SIZE
              (List.range questions.length)).drop (k + 1)).flatten := by
            refine List.mem_flatten.mpr ⟨J, ?_, hjJ⟩
            refine List.mem_iff_getElem?.mpr ⟨0, ?_⟩
            rw [List.getElem?_drop]
            simpa using hJ
          have hnodup : (((chunkList BATCH_SIZE
              (List.range questions.length)).take (k + 1)).flatten ++
              ((chunkList BATCH_SIZE
                (List.range questions.length)).drop (k + 1)).flatten).Nodup := by
            rw [← List.flatten_append, List.take_append_drop,
              chunkList_flatten BATCH_SIZE (by decide)]
            exact List.nodup_range questions.length
          exact absurd hjdrop
            (List.disjoint_of_nodup_append hnodup hjtake)
      · rw [if_neg hmk] at hm
        cases hm

theorem c3_witness :
    ValidSched 11 [[0, 1, 2, 3, 4, 5, 6, 7, 8, 9], [10]] ∧
    BATCH_SIZE < 11 ∧
    (chunkList BATCH_SIZE (List.range 11)).flatten = List.range 11 := by
  have h : ValidSched 11 [[0, 1, 2, 3, 4, 5, 6, 7, 8, 9], [10]] := by decide
  exact ⟨h, by decide,
    (c3_chunk_partition_bound_barrier
      (List.replicate 11 (Option.none : Question))
      (fun _ _ => TaskOutcome.ok []) [[0, 1, 2, 3, 4, 5, 6, 7, 8, 9], [10]] h
      (by decide)).1.1⟩

end MyAgent
